import Mathlib

/-!
Verification of the jira-zd-bridge reconciliation engine (`jzb/bridge.py`).

The Python `Bridge` class is shallowly embedded below: pure decision logic
becomes Lean functions, stateful methods become explicit state-passing
functions, Python exceptions become `Option`/`Except` results, and the
`while` loop of the status-action engine is given an explicit fuel
parameter (one unit of fuel per iteration of the `while True` loop).
Remote objects (JIRA issues, Zendesk tickets, Redis) are represented by
the fields the embedded methods actually read and write.
-/

namespace Jzb

/-! ## Eligibility (`Bridge.is_issue_eligible`, bridge.py lines 188-203)

An issue is represented by its status name and its optional assignee name;
`none` models a JIRA issue with no assignee. -/

/-- Embeds `Bridge.is_issue_eligible`: an untracked or previously closed
issue is eligible for ticket creation unless its status is in
`jira_solved_statuses` or it is assigned to someone other than the bot. -/
def is_issue_eligible (jira_solved_statuses : List String) (jira_identity : String)
    (status : String) (assignee : Option String) : Bool :=
  if jira_solved_statuses.contains status then
    false
  else
    match assignee with
    | some a => if a != jira_identity then false else true
    | none => true

/-! ## Reference-field sync (`Bridge.sync_jira_reference`, bridge.py lines 373-385)

The JIRA reference custom field is modelled by its current value
(`none` when the field is absent/null on the issue).  The result records
the write the method performs; the method has no error path of its own. -/

/-- Outcome of one run of `Bridge.sync_jira_reference`: either no write to
the JIRA issue, or an update setting the reference field to the given value. -/
inductive RefSyncResult : Type where
  | noop : RefSyncResult
  | updated : String → RefSyncResult
deriving DecidableEq, Repr

/-- Embeds `Bridge.sync_jira_reference`.  `jira_reference_field = none`
models a falsy (unconfigured) `self.jira_reference_field`; `currentValue`
is `getattr(ctx.issue.fields, self.jira_reference_field)`. -/
def sync_jira_reference (jira_reference_field : Option String)
    (currentValue : Option String) (ticketId : Nat) : RefSyncResult :=
  match jira_reference_field with
  | none => .noop
  | some _ =>
    if currentValue ≠ some (toString ticketId) then
      .updated (toString ticketId)
    else
      .noop

end Jzb

namespace Jzb

/-- Claim C4: eligibility is a pure function of the issue status, the issue
assignee, the bot identity and the solved-status set; every issue whose
status is in the solved set is ineligible regardless of assignee, and every
issue whose status is not in the solved set and whose assignee is unset or
equal to the bot identity is eligible. -/
theorem eligibility_pure_characterization
    (solved : List String) (ident status : String) (assignee : Option String) :
    (solved.contains status = true →
      is_issue_eligible solved ident status assignee = false)
    ∧ (solved.contains status = false →
        (assignee = none ∨ assignee = some ident) →
        is_issue_eligible solved ident status assignee = true) := by
  constructor
  · intro h
    have h' : status ∈ solved := by simpa using h
    simp [is_issue_eligible, h']
  · intro h hassg
    have h' : status ∉ solved := by simpa using h
    rcases hassg with h2 | h2 <;> subst h2 <;> simp [is_issue_eligible, h']

/-- Witness for C4 at concrete inputs: a solved-status issue is ineligible
even when assigned to a stranger, and an unassigned non-solved issue is
eligible. -/
theorem eligibility_pure_characterization_witness :
    is_issue_eligible ["Done"] "bot" "Done" (some "alice") = false
    ∧ is_issue_eligible ["Done"] "bot" "Open" none = true :=
  ⟨(eligibility_pure_characterization ["Done"] "bot" "Done" (some "alice")).1 (by decide),
   (eligibility_pure_characterization ["Done"] "bot" "Open" none).2 (by decide) (Or.inl rfl)⟩

/-- Counterexample to C1: with the reference field configured, an existing
non-empty field value "999" that does not match the resolved ticket id 123
is silently overwritten with "123"; no error outcome exists in
`Bridge.sync_jira_reference` (the claimed hard error is raised only by the
legacy `bot.py`, not by `jzb/bridge.py`). -/
theorem reference_mismatch_overwritten :
    sync_jira_reference (some "customfield_10000") (some "999") 123
      = RefSyncResult.updated "123" := by
  decide

/-- Claim C1 as amended: when the reference field is configured, the sync
writes the ticket id whenever the field is absent or differs from the
resolved ticket id — a non-matching existing value is silently overwritten,
with no error — and performs no write when the field already matches; when
the field is not configured nothing is written. -/
theorem reference_sync_overwrites_on_mismatch
    (field : String) (cur : Option String) (tid : Nat) :
    (cur = some (toString tid) →
      sync_jira_reference (some field) cur tid = RefSyncResult.noop)
    ∧ (cur ≠ some (toString tid) →
        sync_jira_reference (some field) cur tid = RefSyncResult.updated (toString tid))
    ∧ sync_jira_reference none cur tid = RefSyncResult.noop := by
  refine ⟨fun h => ?_, fun h => ?_, rfl⟩
  · simp [sync_jira_reference, h]
  · simp [sync_jira_reference, h]

/-- Witness for the amended C1 at concrete inputs: matching value is left
alone, absent value is written, unconfigured field is untouched. -/
theorem reference_sync_overwrites_on_mismatch_witness :
    sync_jira_reference (some "customfield_10000") (some "123") 123 = RefSyncResult.noop
    ∧ sync_jira_reference (some "customfield_10000") none 123 = RefSyncResult.updated "123"
    ∧ sync_jira_reference none none 123 = RefSyncResult.noop :=
  ⟨(reference_sync_overwrites_on_mismatch "customfield_10000" (some "123") 123).1 (by decide),
   (reference_sync_overwrites_on_mismatch "customfield_10000" none 123).2.1 (by decide),
   (reference_sync_overwrites_on_mismatch "customfield_10000" none 123).2.2⟩

/-! ## Signature stripping (bridge.py line 426)

`comment.body.rsplit(self.zd_signature_delimeter, 1)[0]` keeps the part of
the body before the LAST occurrence of the delimiter (the whole body when
the delimiter does not occur).  Bodies are modelled as `List Char`. -/

/-- Boolean test that `s` is a prefix of `t` (Python `t.startswith(s)`). -/
def isPre : List Char → List Char → Bool
  | [], _ => true
  | _ :: _, [] => false
  | a :: s, b :: t => a == b && isPre s t

/-- Index of the last occurrence of `sep` inside `body` (the largest `i`
such that `sep` is a prefix of `body.drop i`), as computed by scanning from
the right the way Python `str.rsplit` does. -/
def lastOcc (sep : List Char) : List Char → Option Nat
  | [] => if isPre sep [] then some 0 else none
  | c :: rest =>
    match lastOcc sep rest with
    | some i => some (i + 1)
    | none => if isPre sep (c :: rest) then some 0 else none

/-- Embeds `comment.body.rsplit(delim, 1)[0]`: everything before the last
occurrence of the delimiter, or the whole body when the delimiter is absent. -/
def stripSignature (sep body : List Char) : List Char :=
  match lastOcc sep body with
  | some i => body.take i
  | none => body

/-- The body contains the delimiter as a contiguous substring. -/
def hasDelim (sep body : List Char) : Prop :=
  ∃ pre post, body = pre ++ sep ++ post

theorem isPre_iff (s t : List Char) : isPre s t = true ↔ ∃ r, t = s ++ r := by
  induction s generalizing t with
  | nil => simp [isPre]
  | cons a s ih =>
    cases t with
    | nil => simp [isPre]
    | cons b t =>
      simp only [isPre, Bool.and_eq_true, beq_iff_eq]
      constructor
      · rintro ⟨rfl, h⟩
        obtain ⟨r, rfl⟩ := (ih t).mp h
        exact ⟨r, rfl⟩
      · rintro ⟨r, hr⟩
        cases hr
        exact ⟨rfl, (ih _).mpr ⟨r, rfl⟩⟩

theorem lastOcc_none (sep : List Char) :
    ∀ body : List Char, lastOcc sep body = none →
      ∀ i, isPre sep (body.drop i) = false := by
  intro body
  induction body with
  | nil =>
    intro h i
    simp only [lastOcc] at h
    cases hp : isPre sep [] with
    | false => simpa using hp
    | true => simp [hp] at h
  | cons c rest ih =>
    intro h i
    simp only [lastOcc] at h
    cases hr : lastOcc sep rest with
    | some j => simp [hr] at h
    | none =>
      rw [hr] at h
      cases i with
      | zero =>
        simp only [List.drop_zero]
        cases hp : isPre sep (c :: rest) with
        | false => rfl
        | true => simp [hp] at h
      | succ i =>
        simpa using ih hr i

theorem lastOcc_isPre (sep : List Char) :
    ∀ body i, lastOcc sep body = some i → isPre sep (body.drop i) = true := by
  intro body
  induction body with
  | nil =>
    intro i h
    simp only [lastOcc] at h
    cases hp : isPre sep [] with
    | false => simp [hp] at h
    | true =>
      simp [hp] at h
      subst h
      simpa using hp
  | cons c rest ih =>
    intro i h
    simp only [lastOcc] at h
    cases hr : lastOcc sep rest with
    | some j =>
      rw [hr] at h
      cases h
      simpa using ih j hr
    | none =>
      rw [hr] at h
      cases hp : isPre sep (c :: rest) with
      | false => simp [hp] at h
      | true =>
        simp [hp] at h
        subst h
        simpa using hp

theorem lastOcc_max (sep : List Char) (hsep : sep ≠ []) :
    ∀ body i, lastOcc sep body = some i →
      ∀ j, i < j → isPre sep (body.drop j) = false := by
  intro body
  induction body with
  | nil =>
    intro i h j _
    simp only [lastOcc] at h
    cases hp : isPre sep [] with
    | false => simp [hp] at h
    | true =>
      exfalso
      obtain ⟨r, hr⟩ := (isPre_iff sep []).mp hp
      have hnil : sep = [] := by
        cases sep with
        | nil => rfl
        | cons a s => simp at hr
      exact hsep hnil
  | cons c rest ih =>
    intro i h j hij
    simp only [lastOcc] at h
    cases hr : lastOcc sep rest with
    | some k =>
      rw [hr] at h
      cases h
      cases j with
      | zero => omega
      | succ j =>
        have := ih k hr j (by omega)
        simpa using this
    | none =>
      rw [hr] at h
      cases hp : isPre sep (c :: rest) with
      | false => simp [hp] at h
      | true =>
        simp [hp] at h
        subst h
        cases j with
        | zero => omega
        | succ j =>
          simpa using lastOcc_none sep rest hr j

theorem hasDelim_iff (sep body : List Char) :
    hasDelim sep body ↔ ∃ i, isPre sep (body.drop i) = true := by
  constructor
  · rintro ⟨pre, post, rfl⟩
    refine ⟨pre.length, ?_⟩
    rw [List.append_assoc, List.drop_left]
    exact (isPre_iff _ _).mpr ⟨post, rfl⟩
  · rintro ⟨i, hi⟩
    obtain ⟨r, hr⟩ := (isPre_iff _ _).mp hi
    exact ⟨body.take i, r, by rw [List.append_assoc, ← hr, List.take_append_drop]⟩

/-- Claim C9: the signature-stripping step returns exactly the prefix of
the comment body before the last occurrence of the configured (non-empty)
signature delimiter; in particular, every body that does not contain the
delimiter at all is returned whole — nothing is dropped. -/
theorem strip_signature_exact (sep body : List Char) (hsep : sep ≠ []) :
    (¬ hasDelim sep body → stripSignature sep body = body)
    ∧ (hasDelim sep body →
        ∃ i, lastOcc sep body = some i
          ∧ stripSignature sep body = body.take i
          ∧ isPre sep (body.drop i) = true
          ∧ ∀ j, i < j → isPre sep (body.drop j) = false) := by
  cases h : lastOcc sep body with
  | none =>
    constructor
    · intro _
      simp [stripSignature, h]
    · intro hd
      obtain ⟨i, hi⟩ := (hasDelim_iff sep body).mp hd
      have := lastOcc_none sep body h i
      rw [hi] at this
      cases this
  | some i =>
    constructor
    · intro hd
      exact absurd ((hasDelim_iff sep body).mpr ⟨i, lastOcc_isPre sep body i h⟩) hd
    · intro _
      exact ⟨i, rfl, by simp [stripSignature, h], lastOcc_isPre sep body i h,
        lastOcc_max sep hsep body i h⟩

/-- Witness for C9 at concrete inputs: with delimiter `"--"`, the body
`"hi--sig--footer"` is cut before the last occurrence, and a body without
the delimiter is returned whole. -/
theorem strip_signature_exact_witness :
    (¬ hasDelim ['-', '-'] ['h', 'i'] → stripSignature ['-', '-'] ['h', 'i'] = ['h', 'i'])
    ∧ (hasDelim ['-', '-'] ['h', 'i'] →
        ∃ i, lastOcc ['-', '-'] ['h', 'i'] = some i
          ∧ stripSignature ['-', '-'] ['h', 'i'] = List.take i ['h', 'i']
          ∧ isPre ['-', '-'] (List.drop i ['h', 'i']) = true
          ∧ ∀ j, i < j → isPre ['-', '-'] (List.drop j ['h', 'i']) = false) :=
  strip_signature_exact ['-', '-'] ['h', 'i'] (by decide)

/-! ## Bidirectional comment propagation
(`Bridge.sync_zd_comments_to_jira`, bridge.py lines 403-437, and
`Bridge.sync_jira_comments_to_zd`, lines 439-459)

The Redis seen-sets (`seen_zd_comments` / `seen_jira_comments`) are
modelled as `List Nat` with membership via `contains` and `sadd` as cons.
Each function returns the updated seen-set together with the comments it
copied (id with stripped body for the Zendesk → JIRA direction, id for the
JIRA → Zendesk direction; the Jinja template rendering only formats the
copied text and is dropped from the model). -/

/-- Zendesk ticket comment as read by the bridge. -/
structure ZDComment : Type where
  id : Nat
  author_id : Nat
  public : Bool
  body : List Char

/-- JIRA issue comment as read by the bridge. -/
structure JiraComment : Type where
  id : Nat
  author : String
  body : List Char

/-- Embeds `Bridge.sync_zd_comments_to_jira`: skip non-public comments,
skip the bot's own comments, skip already-seen ids; otherwise copy the
signature-stripped body to JIRA and add the id to the seen-set. -/
def sync_zd_comments_to_jira (zd_identity : Nat) (delim : List Char)
    (seen : List Nat) : List ZDComment → List Nat × List (Nat × List Char)
  | [] => (seen, [])
  | c :: cs =>
    if !c.public then
      sync_zd_comments_to_jira zd_identity delim seen cs
    else if c.author_id == zd_identity then
      sync_zd_comments_to_jira zd_identity delim seen cs
    else if seen.contains c.id then
      sync_zd_comments_to_jira zd_identity delim seen cs
    else
      let r := sync_zd_comments_to_jira zd_identity delim (c.id :: seen) cs
      (r.1, (c.id, stripSignature delim c.body) :: r.2)

/-- Embeds `Bridge.sync_jira_comments_to_zd`: skip the bot's own comments,
skip already-seen ids; otherwise post the comment to the ticket and add the
id to the seen-set. -/
def sync_jira_comments_to_zd (jira_identity : String)
    (seen : List Nat) : List JiraComment → List Nat × List Nat
  | [] => (seen, [])
  | c :: cs =>
    if c.author == jira_identity then
      sync_jira_comments_to_zd jira_identity seen cs
    else if seen.contains c.id then
      sync_jira_comments_to_zd jira_identity seen cs
    else
      let r := sync_jira_comments_to_zd jira_identity (c.id :: seen) cs
      (r.1, c.id :: r.2)

theorem zd_seen_mono (zid : Nat) (delim : List Char) :
    ∀ (cs : List ZDComment) (seen : List Nat) (x : Nat),
      x ∈ seen → x ∈ (sync_zd_comments_to_jira zid delim seen cs).1 := by
  intro cs
  induction cs with
  | nil => intro seen x hx; simpa [sync_zd_comments_to_jira] using hx
  | cons c cs ih =>
    intro seen x hx
    by_cases hpub : c.public
    · by_cases hauth : c.author_id = zid
      · simpa [sync_zd_comments_to_jira, hpub, hauth] using ih seen x hx
      · by_cases hseen : c.id ∈ seen
        · simpa [sync_zd_comments_to_jira, hpub, hauth, hseen] using ih seen x hx
        · simpa [sync_zd_comments_to_jira, hpub, hauth, hseen] using
            ih (c.id :: seen) x (List.mem_cons_of_mem _ hx)
    · simpa [sync_zd_comments_to_jira, hpub] using ih seen x hx

theorem jira_seen_mono (jid : String) :
    ∀ (cs : List JiraComment) (seen : List Nat) (x : Nat),
      x ∈ seen → x ∈ (sync_jira_comments_to_zd jid seen cs).1 := by
  intro cs
  induction cs with
  | nil => intro seen x hx; simpa [sync_jira_comments_to_zd] using hx
  | cons c cs ih =>
    intro seen x hx
    by_cases hauth : c.author = jid
    · simpa [sync_jira_comments_to_zd, hauth] using ih seen x hx
    · by_cases hseen : c.id ∈ seen
      · simpa [sync_jira_comments_to_zd, hauth, hseen] using ih seen x hx
      · simpa [sync_jira_comments_to_zd, hauth, hseen] using
          ih (c.id :: seen) x (List.mem_cons_of_mem _ hx)

theorem zd_idempotent (zid : Nat) (delim : List Char) :
    ∀ (cs : List ZDComment) (seen : List Nat),
      sync_zd_comments_to_jira zid delim
          (sync_zd_comments_to_jira zid delim seen cs).1 cs
        = ((sync_zd_comments_to_jira zid delim seen cs).1, []) := by
  intro cs
  induction cs with
  | nil => intro seen; simp [sync_zd_comments_to_jira]
  | cons c cs ih =>
    intro seen
    by_cases hpub : c.public
    · by_cases hauth : c.author_id = zid
      · simpa [sync_zd_comments_to_jira, hpub, hauth] using ih seen
      · by_cases hseen : c.id ∈ seen
        · have hseen' : c.id ∈ (sync_zd_comments_to_jira zid delim seen cs).1 :=
            zd_seen_mono zid delim cs seen c.id hseen
          simpa [sync_zd_comments_to_jira, hpub, hauth, hseen, hseen'] using ih seen
        · have hseen' : c.id ∈ (sync_zd_comments_to_jira zid delim (c.id :: seen) cs).1 :=
            zd_seen_mono zid delim cs (c.id :: seen) c.id (List.mem_cons_self _ _)
          simpa [sync_zd_comments_to_jira, hpub, hauth, hseen, hseen'] using
            ih (c.id :: seen)
    · simpa [sync_zd_comments_to_jira, hpub] using ih seen

theorem jira_idempotent (jid : String) :
    ∀ (cs : List JiraComment) (seen : List Nat),
      sync_jira_comments_to_zd jid (sync_jira_comments_to_zd jid seen cs).1 cs
        = ((sync_jira_comments_to_zd jid seen cs).1, []) := by
  intro cs
  induction cs with
  | nil => intro seen; simp [sync_jira_comments_to_zd]
  | cons c cs ih =>
    intro seen
    by_cases hauth : c.author = jid
    · simpa [sync_jira_comments_to_zd, hauth] using ih seen
    · by_cases hseen : c.id ∈ seen
      · have hseen' : c.id ∈ (sync_jira_comments_to_zd jid seen cs).1 :=
          jira_seen_mono jid cs seen c.id hseen
        simpa [sync_jira_comments_to_zd, hauth, hseen, hseen'] using ih seen
      · have hseen' : c.id ∈ (sync_jira_comments_to_zd jid (c.id :: seen) cs).1 :=
          jira_seen_mono jid cs (c.id :: seen) c.id (List.mem_cons_self _ _)
        simpa [sync_jira_comments_to_zd, hauth, hseen, hseen'] using ih (c.id :: seen)

/-- Claim C5: comment propagation is idempotent with respect to the
seen-set state.  In each direction, running the propagation a second time
against the same source comments, starting from the seen-set the first run
left behind, copies zero additional comments (and leaves the seen-set
unchanged). -/
theorem comment_propagation_idempotent (zid : Nat) (delim : List Char)
    (jid : String) (zcs : List ZDComment) (jcs : List JiraComment)
    (seenZ seenJ : List Nat) :
    sync_zd_comments_to_jira zid delim
        (sync_zd_comments_to_jira zid delim seenZ zcs).1 zcs
      = ((sync_zd_comments_to_jira zid delim seenZ zcs).1, [])
    ∧ sync_jira_comments_to_zd jid (sync_jira_comments_to_zd jid seenJ jcs).1 jcs
      = ((sync_jira_comments_to_zd jid seenJ jcs).1, []) :=
  ⟨zd_idempotent zid delim zcs seenZ, jira_idempotent jid jcs seenJ⟩

/-! ## Escalation resolution (`Bridge.handle_escalation`, bridge.py lines 272-300)

An escalation strategy definition pairs a compiled group-name pattern
(modelled as a boolean predicate, `group_pattern.match(name)`) with its
strategy, which is represented by the contact `get_escalation_contact`
returns.  The resolver walks the definitions in configuration order and
stops at the first whose pattern matches the group name; the returned pair
is the selected rule's index and contact (the contact the issue is assigned
to), and the second component lists the indices of the rules whose patterns
were tested. -/

/-- Escalation strategy definition: group pattern plus strategy contact. -/
structure EscalationStrategyDefinition : Type where
  group_pattern : String → Bool
  contact : String

/-- Embeds the matching loop of `Bridge.handle_escalation`: first match in
list order wins; later rules are not tested.  Returns
(selected index and contact, tested indices). -/
def handle_escalation : List EscalationStrategyDefinition → String →
    Option (Nat × String) × List Nat
  | [], _ => (none, [])
  | d :: ds, g =>
    if d.group_pattern g then
      (some (0, d.contact), [0])
    else
      let r := handle_escalation ds g
      (r.1.map (fun p => (p.1 + 1, p.2)), 0 :: r.2.map (· + 1))

/-- Claim C7: escalation resolution has first-match semantics.  Whenever
two rules at positions `i < j` both match the ticket's group name, the
resolver selects a rule at some position `k ≤ i` (the earliest match),
assigns the issue to that rule's strategy contact, and never tests the
later rule `j`. -/
theorem escalation_first_match (defs : List EscalationStrategyDefinition)
    (g : String) (i j : Nat) (di dj : EscalationStrategyDefinition)
    (hij : i < j) (hi : defs[i]? = some di) (hj : defs[j]? = some dj)
    (hmi : di.group_pattern g = true) (hmj : dj.group_pattern g = true) :
    ∃ k dk, k ≤ i ∧ defs[k]? = some dk ∧ dk.group_pattern g = true
      ∧ (handle_escalation defs g).1 = some (k, dk.contact)
      ∧ j ∉ (handle_escalation defs g).2 := by
  induction defs generalizing i j with
  | nil => simp at hi
  | cons d ds ih =>
    by_cases hd : d.group_pattern g = true
    · refine ⟨0, d, Nat.zero_le i, by simp, hd, ?_, ?_⟩
      · simp [handle_escalation, hd]
      · simp only [handle_escalation, hd, if_pos]
        intro hmem
        simp only [List.mem_singleton] at hmem
        omega
    · cases i with
      | zero =>
        simp only [List.getElem?_cons_zero, Option.some.injEq] at hi
        subst hi
        exact absurd hmi hd
      | succ i =>
        cases j with
        | zero => omega
        | succ j =>
          simp only [List.getElem?_cons_succ] at hi hj
          obtain ⟨k, dk, hk, hdk, hmk, hsel, hnot⟩ :=
            ih i j (by omega) hi hj
          refine ⟨k + 1, dk, by omega, ?_, hmk, ?_, ?_⟩
          · rw [List.getElem?_cons_succ]
            exact hdk
          · simp [handle_escalation, hd, hsel]
          · simp only [handle_escalation, if_neg hd]
            intro hmem
            rcases List.mem_cons.mp hmem with h0 | hmap
            · omega
            · obtain ⟨m, hm, hms⟩ := List.mem_map.mp hmap
              have : m = j := by omega
              exact hnot (this ▸ hm)

/-- Witness for C7 at concrete inputs: with two rules that both match the
group name "ops-team", the resolver picks rule 0, assigns its contact
"alice", and never tests rule 1. -/
theorem escalation_first_match_witness :
    ∃ k dk, k ≤ 0
      ∧ [⟨fun g => g == "ops-team", "alice"⟩,
          ⟨fun g => g == "ops-team", "bob"⟩][k]?
          = some (dk : EscalationStrategyDefinition)
      ∧ dk.group_pattern "ops-team" = true
      ∧ (handle_escalation
          [⟨fun g => g == "ops-team", "alice"⟩,
            ⟨fun g => g == "ops-team", "bob"⟩] "ops-team").1
          = some (k, dk.contact)
      ∧ 1 ∉ (handle_escalation
          [⟨fun g => g == "ops-team", "alice"⟩,
            ⟨fun g => g == "ops-team", "bob"⟩] "ops-team").2 :=
  escalation_first_match
    [⟨fun g => g == "ops-team", "alice"⟩, ⟨fun g => g == "ops-team", "bob"⟩]
    "ops-team" 0 1 ⟨fun g => g == "ops-team", "alice"⟩
    ⟨fun g => g == "ops-team", "bob"⟩
    (by omega) rfl rfl (by decide) (by decide)

/-! ## Assignee / group change detection (`Bridge.sync_assignee`, bridge.py
lines 245-270, together with `handle_escalation`'s state effects, lines
272-300)

The state visible to `sync_assignee` is:

* `worldAssignee` — the assignee of the issue on the JIRA server (changed
  by `jira_client.assign_issue`, read back by `refresh_issue`);
* `ctxAssignee` — `ctx.issue.fields.assignee` in the in-memory snapshot;
* `ticketGroup` — `ctx.ticket.group_id` (changed by `ticket.update`);
* `lastJiraAssignee`, `lastZdGroup` — the Redis `last_seen_jira_assignee` /
  `last_seen_zd_group` values; Redis stores strings, so the group id is
  stored via `toString` exactly as Python stores `str`-converted values.

Exceptions (an unknown group id in `find_group_by_id`) make the method
return `none`; the `post_escalation` hook is caught and swallowed by the
source and so has no effect on this state. -/

/-- State read and written by `Bridge.sync_assignee`. -/
structure AssigneeState : Type where
  worldAssignee : Option String
  ctxAssignee : Option String
  ticketGroup : Nat
  lastJiraAssignee : Option String
  lastZdGroup : Option String
deriving DecidableEq, Repr

/-- Embeds `Bridge.find_group_by_id` over the cached assignable-group list;
`none` models the `ValueError` it raises for an unknown id. -/
def find_group_by_id (groups : List (Nat × String)) (id : Nat) : Option String :=
  (groups.find? (fun g => g.1 == id)).map Prod.snd

/-- State effect of `Bridge.handle_escalation`: resolve the group name (a
lookup failure propagates as `none`), then on first pattern match assign
the issue to the strategy's contact and refresh the issue snapshot; when no
pattern matches, only a warning is logged. -/
def apply_escalation (escDefs : List EscalationStrategyDefinition)
    (groups : List (Nat × String)) (st : AssigneeState) : Option AssigneeState :=
  match find_group_by_id groups st.ticketGroup with
  | none => none
  | some gname =>
    match (handle_escalation escDefs gname).1 with
    | some (_, contact) =>
      let st1 := { st with worldAssignee := some contact }
      some { st1 with ctxAssignee := st1.worldAssignee }
    | none => some st

/-- The two `redis.set` calls at the end of `Bridge.sync_assignee`:
`last_seen_jira_assignee := ctx.issue.fields.assignee.name` and
`last_seen_zd_group := ctx.ticket.group_id`. -/
def persist_last_seen (st : AssigneeState) : AssigneeState :=
  { st with lastJiraAssignee := st.ctxAssignee,
            lastZdGroup := some (toString st.ticketGroup) }

/-- Embeds `Bridge.sync_assignee`.  Branches, in source order: unassigned
issue (assign to bot, refresh, fall through to persist); tracker assignee
changed (move ticket to the support group when the bot took it back, fall
through to persist); desk group changed (escalate when it left the support
group, fall through to persist); otherwise return early WITHOUT executing
the persist statements. -/
def sync_assignee (jira_identity : String) (supportGroup : Nat)
    (escDefs : List EscalationStrategyDefinition) (groups : List (Nat × String))
    (st : AssigneeState) : Option AssigneeState :=
  match st.ctxAssignee with
  | none =>
    let st1 := { st with worldAssignee := some jira_identity }
    let st2 := { st1 with ctxAssignee := st1.worldAssignee }
    some (persist_last_seen st2)
  | some a =>
    if some a ≠ st.lastJiraAssignee then
      let st2 :=
        if a = jira_identity ∧ st.ticketGroup ≠ supportGroup then
          { st with ticketGroup := supportGroup }
        else st
      some (persist_last_seen st2)
    else if some (toString st.ticketGroup) ≠ st.lastZdGroup then
      if st.ticketGroup ≠ supportGroup then
        (apply_escalation escDefs groups st).map persist_last_seen
      else
        some (persist_last_seen st)
    else
      some st

/-- Claim C3: whenever `sync_assignee` completes (does not raise), the
stored last-seen values agree with the current tracker assignee name and
desk group id — on the three change branches because the persist statements
run, and on the final no-op fallthrough because that branch is reached only
when the stored values already equal the current ones. -/
theorem assignee_last_seen_persisted (ident : String) (support : Nat)
    (escDefs : List EscalationStrategyDefinition) (groups : List (Nat × String))
    (st st' : AssigneeState)
    (h : sync_assignee ident support escDefs groups st = some st') :
    st'.lastJiraAssignee = st'.ctxAssignee
      ∧ st'.lastZdGroup = some (toString st'.ticketGroup) := by
  unfold sync_assignee at h
  split at h
  · cases h
    exact ⟨rfl, rfl⟩
  · rename_i a hctx
    split at h
    · cases h
      exact ⟨rfl, rfl⟩
    · rename_i h1
      split at h
      · split at h
        · cases he : apply_escalation escDefs groups st with
          | none => rw [he] at h; simp at h
          | some u =>
            rw [he] at h
            simp only [Option.map_some'] at h
            cases h
            exact ⟨rfl, rfl⟩
        · cases h
          exact ⟨rfl, rfl⟩
      · rename_i h2
        cases h
        push_neg at h1 h2
        exact ⟨by rw [hctx]; exact h1.symm, h2.symm⟩

/-- Witness for C3 at a concrete input hitting the unassigned branch: the
bot takes the issue and both last-seen values are rewritten. -/
theorem assignee_last_seen_persisted_witness :
    (AssigneeState.mk (some "bot") (some "bot") 7 (some "bot") (some "7")).lastJiraAssignee
        = (AssigneeState.mk (some "bot") (some "bot") 7 (some "bot") (some "7")).ctxAssignee
      ∧ (AssigneeState.mk (some "bot") (some "bot") 7 (some "bot") (some "7")).lastZdGroup
        = some (toString
            (AssigneeState.mk (some "bot") (some "bot") 7 (some "bot") (some "7")).ticketGroup) :=
  assignee_last_seen_persisted "bot" 5 [] []
    (AssigneeState.mk none none 7 none none)
    (AssigneeState.mk (some "bot") (some "bot") 7 (some "bot") (some "7"))
    (by decide)

/-! ## Non-null assignee at the status-sync step
(`Bridge.sync_status` line 314 reads `ctx.issue.fields.assignee.name`;
`Bridge.sync_issue` lines 127-141 fixes the step order;
`Bridge.sync_zd_comments_to_jira` may refresh the issue snapshot once
before `sync_status` runs.) -/

/-- The `owned` computation of `Bridge.sync_status`:
`ctx.issue.fields.assignee.name == self.jira_identity`.  A `none` result
models the `AttributeError` Python would raise on a missing assignee. -/
def ownedFlag (jira_identity : String) (st : AssigneeState) : Option Bool :=
  st.ctxAssignee.map (fun a => a == jira_identity)

/-- The optional `refresh_issue` performed by `sync_zd_comments_to_jira`
(bridge.py lines 436-437) between `sync_assignee` and `sync_status`:
re-reads the issue snapshot from the tracker. -/
def maybeRefreshIssue (copiedAny : Bool) (st : AssigneeState) : AssigneeState :=
  if copiedAny then { st with ctxAssignee := st.worldAssignee } else st

theorem sync_assignee_snapshot (ident : String) (support : Nat)
    (escDefs : List EscalationStrategyDefinition) (groups : List (Nat × String))
    (st st' : AssigneeState) (hsnap : st.ctxAssignee = st.worldAssignee)
    (h : sync_assignee ident support escDefs groups st = some st') :
    st'.ctxAssignee = st'.worldAssignee ∧ st'.ctxAssignee.isSome = true := by
  unfold sync_assignee at h
  split at h
  · cases h
    exact ⟨rfl, rfl⟩
  · rename_i a hctx
    split at h
    · cases h
      split
      · exact ⟨hsnap, by simp [persist_last_seen, hctx]⟩
      · exact ⟨hsnap, by simp [persist_last_seen, hctx]⟩
    · split at h
      · split at h
        · unfold apply_escalation at h
          split at h
          · simp at h
          · split at h
            · simp only [Option.map_some'] at h
              cases h
              exact ⟨rfl, rfl⟩
            · simp only [Option.map_some'] at h
              cases h
              exact ⟨hsnap, by simp [persist_last_seen, hctx]⟩
        · cases h
          exact ⟨hsnap, by simp [persist_last_seen, hctx]⟩
      · cases h
        exact ⟨hsnap, by simp [hctx]⟩

/-- Claim C10: every issue that reaches the status-sync step has a non-null
assignee there.  Provided the in-memory snapshot agreed with the tracker
when the pass fetched the issue, after `sync_assignee` completes — it
assigns the bot and refreshes whenever the issue was unassigned — the
assignee is non-null and stays non-null across the optional comment-sync
refresh, so the `owned` computation never dereferences a missing assignee. -/
theorem owned_flag_never_missing (ident : String) (support : Nat)
    (escDefs : List EscalationStrategyDefinition) (groups : List (Nat × String))
    (st st' : AssigneeState) (hsnap : st.ctxAssignee = st.worldAssignee)
    (h : sync_assignee ident support escDefs groups st = some st') (copiedAny : Bool) :
    (ownedFlag ident (maybeRefreshIssue copiedAny st')).isSome = true := by
  obtain ⟨heq, hsome⟩ :=
    sync_assignee_snapshot ident support escDefs groups st st' hsnap h
  unfold maybeRefreshIssue ownedFlag
  cases copiedAny with
  | true => simp only [if_pos]; rw [← heq]; simpa using hsome
  | false => simpa using hsome

/-- Witness for C10 at a concrete input: an unassigned issue snapshot in
sync with the tracker; after `sync_assignee` the owned flag evaluates
without dereferencing a missing assignee, with and without the comment
refresh. -/
theorem owned_flag_never_missing_witness :
    (ownedFlag "bot" (maybeRefreshIssue true
        (AssigneeState.mk (some "bot") (some "bot") 7 (some "bot") (some "7")))).isSome
      = true :=
  owned_flag_never_missing "bot" 5 [] []
    (AssigneeState.mk none none 7 none none)
    (AssigneeState.mk (some "bot") (some "bot") 7 (some "bot") (some "7"))
    rfl (by decide) true

/-! ## Pass orchestration (`Bridge.sync`, bridge.py lines 114-125)

The per-issue body `self.sync_issue(SyncContext(issue))` is abstracted as a
function into `Except String Unit`; `.error` models any exception the bare
`except:` clause catches and logs with the issue key.  The result records,
for each issue in query order, its key paired with the logged error (if
any). -/

/-- A JIRA issue as identified by the pass loop. -/
structure Issue : Type where
  key : String

/-- Embeds `Bridge.sync`: iterate the issues matching the JQL query and run
`sync_issue` on each inside try/except — an exception is logged with the
issue key and the loop continues. -/
def sync (sync_issue : Issue → Except String Unit) : List Issue →
    List (String × Option String)
  | [] => []
  | i :: rest =>
    match sync_issue i with
    | .ok _ => (i.key, none) :: sync sync_issue rest
    | .error e => (i.key, some e) :: sync sync_issue rest

/-- Logged error of a per-issue outcome. -/
def errOf : Except String Unit → Option String
  | .ok _ => none
  | .error e => some e

/-- Claim C8: a failure while reconciling one issue is caught at the pass
level and logged with that issue's identity, and the pass continues with
the remaining issues.  Whatever the per-issue behaviour `f`, the pass
processes every issue of the candidate list in order, pairing each key with
the error (if any) raised for it — no single-issue failure aborts the pass. -/
theorem pass_isolates_issue_failures (f : Issue → Except String Unit)
    (issues : List Issue) :
    sync f issues = issues.map (fun i => (i.key, errOf (f i)))
      ∧ (sync f issues).map Prod.fst = issues.map Issue.key := by
  have hmain : sync f issues = issues.map (fun i => (i.key, errOf (f i))) := by
    induction issues with
    | nil => rfl
    | cons i rest ih =>
      cases hf : f i with
      | ok u => simp [sync, hf, ih, errOf]
      | error e => simp [sync, hf, ih, errOf]
  refine ⟨hmain, ?_⟩
  rw [hmain, List.map_map]
  rfl

/-! ## Status action engine (`Bridge.process_status_actions`, bridge.py
lines 332-371, with `Action`/`ActionDefinition`, lines 663-682, and the
changed flags of `Bridge.sync_status`, lines 309-330)

The `SyncContext` visible to the engine is the pair of current status
names plus the rest of the mutable issue/ticket state, abstracted as a
type parameter `α`.  An action's `handle` call is a function from context
to `Option` context (`none` models an exception raised by the handler; a
raising handler is modelled as leaving the context unchanged).  The
`while True` loop is given explicit fuel, one unit per iteration; running
out of fuel means the loop was still firing rules after that many
iterations.  Each run also returns the list of actions that were
executed, in execution order. -/

/-- The issue/ticket pair threaded through the engine: the two status
names read by rule matching, plus everything else (`rest`). -/
structure SyncContext (α : Type) : Type where
  issueStatus : String
  ticketStatus : String
  rest : α
deriving DecidableEq, Repr

/-- Source `Action`: handler, description, `only_once` flag.  The bound
parameter map is absorbed into the handler. -/
structure Action (α : Type) : Type where
  handler : SyncContext α → Option (SyncContext α)
  description : String
  only_once : Bool

/-- Source `ActionDefinition`: status sets, ordered actions, `force` flag. -/
structure ActionDefinition (α : Type) : Type where
  jira_status : List String
  zd_status : List String
  actions : List (Action α)
  description : String
  force : Bool

/-- A rule is eligible and matches iff (`owned or force`) and both current
statuses are in the rule's status sets — the `continue` conditions of the
scan loop, bridge.py lines 345-350. -/
def eligMatches {α : Type} (owned : Bool) (s : SyncContext α)
    (d : ActionDefinition α) : Bool :=
  (owned || d.force) && d.jira_status.contains s.issueStatus
    && d.zd_status.contains s.ticketStatus

/-- First eligible matching rule in configured order, with its index. -/
def findMatch {α : Type} (owned : Bool) (s : SyncContext α) :
    List (ActionDefinition α) → Option (Nat × ActionDefinition α)
  | [] => none
  | d :: ds =>
    if eligMatches owned s d then some (0, d)
    else (findMatch owned s ds).map (fun p => (p.1 + 1, p.2))

/-- Runs a matched rule's actions in order (bridge.py lines 355-365):
an `only_once` action is skipped when `changed` is false (the `continue`);
a raising handler stops the run with the abort flag set (the `return`).
Returns (resulting context, aborted?, actions executed in order). -/
def runActions {α : Type} (changed : Bool) :
    SyncContext α → List (Action α) → SyncContext α × Bool × List (Action α)
  | s, [] => (s, false, [])
  | s, a :: rest =>
    if a.only_once && !changed then
      runActions changed s rest
    else
      match a.handler s with
      | none => (s, true, [a])
      | some s' =>
        let r := runActions changed s' rest
        (r.1, r.2.1, a :: r.2.2)

/-- Outcome of the fuelled `while True` loop: a state where no rule
matches (`break` after `match` stayed false), an action error (`return`
inside the loop), or fuel exhausted while rules were still firing. -/
inductive LoopResult (α : Type) : Type where
  | fixedPoint : SyncContext α → LoopResult α
  | aborted : SyncContext α → LoopResult α
  | outOfFuel : SyncContext α → LoopResult α
deriving DecidableEq, Repr

def LoopResult.isFixedPoint {α : Type} : LoopResult α → Bool
  | .fixedPoint _ => true
  | _ => false

def LoopResult.isOutOfFuel {α : Type} : LoopResult α → Bool
  | .outOfFuel _ => true
  | _ => false

/-- Embeds `Bridge.process_status_actions` with explicit fuel, also
accumulating the executed actions. -/
def process_status_actions {α : Type} (defs : List (ActionDefinition α))
    (changed owned : Bool) : Nat → SyncContext α → LoopResult α × List (Action α)
  | 0, s => (.outOfFuel s, [])
  | fuel + 1, s =>
    match findMatch owned s defs with
    | none => (.fixedPoint s, [])
    | some (_, d) =>
      if (runActions changed s d.actions).2.1 then
        (.aborted (runActions changed s d.actions).1, (runActions changed s d.actions).2.2)
      else
        ((process_status_actions defs changed owned fuel
            (runActions changed s d.actions).1).1,
          (runActions changed s d.actions).2.2
            ++ (process_status_actions defs changed owned fuel
                (runActions changed s d.actions).1).2)

/-- One complete, non-aborting iteration of the loop: the first eligible
matching rule fires and its actions all succeed, yielding the next state. -/
def fireStep {α : Type} (defs : List (ActionDefinition α)) (changed owned : Bool)
    (s : SyncContext α) : Option (SyncContext α) :=
  match findMatch owned s defs with
  | none => none
  | some (_, d) =>
    if (runActions changed s d.actions).2.1 then none
    else some (runActions changed s d.actions).1

/-- `n` complete loop iterations starting from `s`. -/
def iterFire {α : Type} (defs : List (ActionDefinition α)) (changed owned : Bool) :
    Nat → SyncContext α → Option (SyncContext α)
  | 0, s => some s
  | n + 1, s => (fireStep defs changed owned s).bind (iterFire defs changed owned n)

/-- Index of the rule that the scan selects at state `s` (if any). -/
def firedIdx {α : Type} (defs : List (ActionDefinition α)) (owned : Bool)
    (s : SyncContext α) : Option Nat :=
  (findMatch owned s defs).map Prod.fst

/-- A self-matching cycle of rules eligible to fire: some state whose
selected rule is selected again after a positive number of complete loop
iterations. -/
def selfMatchCycle {α : Type} (defs : List (ActionDefinition α))
    (changed owned : Bool) : Prop :=
  ∃ (s u : SyncContext α) (n i : Nat), 0 < n
    ∧ firedIdx defs owned s = some i
    ∧ iterFire defs changed owned n s = some u
    ∧ firedIdx defs owned u = some i

/-- A self-matching cycle all of whose fired rules have `force = true` —
the cycles excluded by the claim's hypothesis. -/
def selfMatchForceCycle {α : Type} (defs : List (ActionDefinition α))
    (changed owned : Bool) : Prop :=
  ∃ (s u : SyncContext α) (n i : Nat), 0 < n
    ∧ firedIdx defs owned s = some i
    ∧ iterFire defs changed owned n s = some u
    ∧ firedIdx defs owned u = some i
    ∧ ∀ k, k < n → ∃ (v : SyncContext α) (j : Nat) (d : ActionDefinition α),
        iterFire defs changed owned k s = some v
        ∧ findMatch owned v defs = some (j, d) ∧ d.force = true

/-- The changed flags of `Bridge.sync_status` (lines 318, 322): the Redis
last-seen status (absent on the first pass) compared with the current
status name. -/
def status_changed (last_seen : Option String) (current : String) : Bool :=
  last_seen != some current

theorem findMatch_mem {α : Type} (owned : Bool) (s : SyncContext α) :
    ∀ (l : List (ActionDefinition α)) (i : Nat) (d : ActionDefinition α),
      findMatch owned s l = some (i, d) → d ∈ l := by
  intro l
  induction l with
  | nil => intro i d h; simp [findMatch] at h
  | cons d0 ds ih =>
    intro i d h
    by_cases he : eligMatches owned s d0 = true
    · simp only [findMatch, if_pos he, Option.some.injEq] at h
      obtain ⟨-, rfl⟩ := Prod.mk.injEq .. ▸ h
      exact List.mem_cons_self _ _
    · simp only [findMatch, if_neg he] at h
      cases hm : findMatch owned s ds with
      | none => rw [hm] at h; simp at h
      | some p =>
        rw [hm] at h
        simp only [Option.map_some', Option.some.injEq] at h
        cases h
        exact List.mem_cons_of_mem _ (ih p.1 p.2 (by rw [hm]))

theorem findMatch_lt {α : Type} (owned : Bool) (s : SyncContext α) :
    ∀ (l : List (ActionDefinition α)) (i : Nat) (d : ActionDefinition α),
      findMatch owned s l = some (i, d) → i < l.length := by
  intro l
  induction l with
  | nil => intro i d h; simp [findMatch] at h
  | cons d0 ds ih =>
    intro i d h
    by_cases he : eligMatches owned s d0 = true
    · simp only [findMatch, if_pos he, Option.some.injEq] at h
      have : i = 0 := by
        have := congrArg Prod.fst h
        simpa using this.symm
      simp [this]
    · simp only [findMatch, if_neg he] at h
      cases hm : findMatch owned s ds with
      | none => rw [hm] at h; simp at h
      | some p =>
        rw [hm] at h
        simp only [Option.map_some', Option.some.injEq] at h
        have hi : i = p.1 + 1 := by
          have := congrArg Prod.fst h
          simpa using this.symm
        have := ih p.1 p.2 (by rw [hm])
        simp only [List.length_cons]
        omega

theorem iterFire_add {α : Type} (defs : List (ActionDefinition α))
    (changed owned : Bool) :
    ∀ (m n : Nat) (s : SyncContext α),
      iterFire defs changed owned (m + n) s
        = (iterFire defs changed owned m s).bind (iterFire defs changed owned n) := by
  intro m
  induction m with
  | zero =>
    intro n s
    simp [iterFire]
  | succ m ih =>
    intro n s
    have hs : m + 1 + n = (m + n) + 1 := by omega
    rw [hs]
    simp only [iterFire]
    cases hf : fireStep defs changed owned s with
    | none => simp
    | some s' => simp [ih n s']

theorem runActions_no_abort {α : Type} (changed : Bool) :
    ∀ (acts : List (Action α)) (s : SyncContext α),
      (∀ a ∈ acts, ∀ t, (a.handler t).isSome = true) →
      (runActions changed s acts).2.1 = false := by
  intro acts
  induction acts with
  | nil => intro s _; rfl
  | cons a rest ih =>
    intro s htot
    by_cases hskip : (a.only_once && !changed) = true
    · simp only [runActions, if_pos hskip]
      exact ih s (fun b hb => htot b (List.mem_cons_of_mem _ hb))
    · simp only [runActions, if_neg hskip]
      cases hh : a.handler s with
      | none =>
        exfalso
        have := htot a (List.mem_cons_self _ _) s
        rw [hh] at this
        simp at this
      | some s' =>
        simpa using ih s' (fun b hb => htot b (List.mem_cons_of_mem _ hb))

theorem process_succ_none {α : Type} (defs : List (ActionDefinition α))
    (changed owned : Bool) (fuel : Nat) (s : SyncContext α)
    (hfm : findMatch owned s defs = none) :
    process_status_actions defs changed owned (fuel + 1) s
      = (.fixedPoint s, []) := by
  simp only [process_status_actions, hfm]

theorem process_succ_some {α : Type} (defs : List (ActionDefinition α))
    (changed owned : Bool) (fuel : Nat) (s : SyncContext α) (i : Nat)
    (d : ActionDefinition α) (hfm : findMatch owned s defs = some (i, d)) :
    process_status_actions defs changed owned (fuel + 1) s
      = if (runActions changed s d.actions).2.1 then
          (.aborted (runActions changed s d.actions).1,
            (runActions changed s d.actions).2.2)
        else
          ((process_status_actions defs changed owned fuel
              (runActions changed s d.actions).1).1,
            (runActions changed s d.actions).2.2
              ++ (process_status_actions defs changed owned fuel
                  (runActions changed s d.actions).1).2) := by
  simp only [process_status_actions, hfm]

theorem process_no_abort {α : Type} (defs : List (ActionDefinition α))
    (changed owned : Bool)
    (htot : ∀ d ∈ defs, ∀ a ∈ d.actions, ∀ t, (a.handler t).isSome = true) :
    ∀ (fuel : Nat) (s t : SyncContext α) (log : List (Action α)),
      process_status_actions defs changed owned fuel s ≠ (.aborted t, log) := by
  intro fuel
  induction fuel with
  | zero =>
    intro s t log h
    simp only [process_status_actions, Prod.mk.injEq] at h
    exact absurd h.1 (by intro hc; cases hc)
  | succ fuel ih =>
    intro s t log h
    cases hfm : findMatch owned s defs with
    | none =>
      rw [process_succ_none defs changed owned fuel s hfm] at h
      simp only [Prod.mk.injEq] at h
      exact absurd h.1 (by intro hc; cases hc)
    | some p =>
      obtain ⟨i, d⟩ := p
      rw [process_succ_some defs changed owned fuel s i d hfm] at h
      have hnab : (runActions changed s d.actions).2.1 = false :=
        runActions_no_abort changed d.actions s
          (htot d (findMatch_mem owned s defs i d hfm))
      rw [if_neg (by simp [hnab])] at h
      simp only [Prod.mk.injEq] at h
      rcases hp : process_status_actions defs changed owned fuel
          (runActions changed s d.actions).1 with ⟨r2, log2⟩
      rw [hp] at h
      cases r2 with
      | aborted u => exact ih _ u log2 hp
      | fixedPoint u => exact absurd h.1 (by intro hc; cases hc)
      | outOfFuel u => exact absurd h.1 (by intro hc; cases hc)

theorem process_outOfFuel_iter {α : Type} (defs : List (ActionDefinition α))
    (changed owned : Bool) :
    ∀ (fuel : Nat) (s : SyncContext α),
      (process_status_actions defs changed owned fuel s).1.isOutOfFuel = true →
      ∀ k, k < fuel →
        ∃ v, iterFire defs changed owned k s = some v
          ∧ (fireStep defs changed owned v).isSome = true := by
  intro fuel
  induction fuel with
  | zero => intro s _ k hk; omega
  | succ fuel ih =>
    intro s h k hk
    cases hfm : findMatch owned s defs with
    | none =>
      rw [process_succ_none defs changed owned fuel s hfm] at h
      simp [LoopResult.isOutOfFuel] at h
    | some p =>
      obtain ⟨i, d⟩ := p
      rw [process_succ_some defs changed owned fuel s i d hfm] at h
      by_cases hab : (runActions changed s d.actions).2.1 = true
      · rw [if_pos hab] at h
        simp [LoopResult.isOutOfFuel] at h
      · rw [if_neg hab] at h
        have hfs : fireStep defs changed owned s
            = some (runActions changed s d.actions).1 := by
          simp only [fireStep, hfm]
          rw [if_neg hab]
        cases k with
        | zero => exact ⟨s, rfl, by rw [hfs]; rfl⟩
        | succ m =>
          obtain ⟨v, hv, hvs⟩ :=
            ih ((runActions changed s d.actions).1) h m (by omega)
          refine ⟨v, ?_, hvs⟩
          simp only [iterFire]
          rw [hfs]
          simpa using hv

theorem fireStep_firedIdx {α : Type} (defs : List (ActionDefinition α))
    (changed owned : Bool) (v : SyncContext α)
    (h : (fireStep defs changed owned v).isSome = true) :
    ∃ i, firedIdx defs owned v = some i ∧ i < defs.length := by
  unfold fireStep at h
  cases hfm : findMatch owned v defs with
  | none => rw [hfm] at h; simp at h
  | some p =>
    exact ⟨p.1, by simp [firedIdx, hfm],
      findMatch_lt owned v defs p.1 p.2 (by rw [hfm])⟩

/-- Claim C2 as amended: for every rule table whose action handlers do not
raise and that contains no self-matching cycle of rules eligible to fire
(rules with `force = true`, or any rule when the issue is owned by the
bot), the processing loop reaches a state where no rule matches within
rule-count + 1 loop iterations.  (The original claim's bound fails once a
non-`force` rule can re-match under an owned issue, see the
counterexample.) -/
theorem status_actions_reach_fixed_point (α : Type)
    (defs : List (ActionDefinition α)) (changed owned : Bool) (s : SyncContext α)
    (htot : ∀ d ∈ defs, ∀ a ∈ d.actions, ∀ t, (a.handler t).isSome = true)
    (hcyc : ¬ selfMatchCycle defs changed owned) :
    ∃ t log, process_status_actions defs changed owned (defs.length + 1) s
      = (LoopResult.fixedPoint t, log) := by
  rcases hres : process_status_actions defs changed owned (defs.length + 1) s
    with ⟨r, log⟩
  cases r with
  | fixedPoint t => exact ⟨t, log, rfl⟩
  | aborted t =>
    exact absurd hres (process_no_abort defs changed owned htot _ s t log)
  | outOfFuel t =>
    exfalso
    have hoof : (process_status_actions defs changed owned
        (defs.length + 1) s).1.isOutOfFuel = true := by
      rw [hres]
      rfl
    have H : ∀ k : Fin (defs.length + 1),
        ∃ v i, iterFire defs changed owned k.val s = some v
          ∧ firedIdx defs owned v = some i ∧ i < defs.length := by
      intro k
      obtain ⟨v, hv, hvs⟩ := process_outOfFuel_iter defs changed owned
        (defs.length + 1) s hoof k.val k.isLt
      obtain ⟨i, hi, hilt⟩ := fireStep_firedIdx defs changed owned v hvs
      exact ⟨v, i, hv, hi, hilt⟩
    choose v idx hv hidx hlt using H
    have key : ∀ a b : Fin (defs.length + 1),
        a.val < b.val → idx a = idx b → False := by
      intro a b hab hieq
      apply hcyc
      have h1 := iterFire_add defs changed owned a.val (b.val - a.val) s
      rw [Nat.add_sub_cancel' (Nat.le_of_lt hab), hv a, hv b] at h1
      simp only [Option.some_bind] at h1
      exact ⟨v a, v b, b.val - a.val, idx a, by omega, hidx a, h1.symm,
        by rw [hieq]; exact hidx b⟩
    have hni : ¬ Function.Injective
        (fun k : Fin (defs.length + 1) => (⟨idx k, hlt k⟩ : Fin defs.length)) := by
      intro hinj
      have hcard := Fintype.card_le_of_injective _ hinj
      simp only [Fintype.card_fin] at hcard
      omega
    obtain ⟨a, b, hfab, hne⟩ := Function.not_injective_iff.mp hni
    have hieq : idx a = idx b := congrArg Fin.val hfab
    rcases Nat.lt_trichotomy a.val b.val with hlt2 | heq2 | hgt2
    · exact key a b hlt2 hieq
    · exact hne (Fin.ext heq2)
    · exact key b a hgt2 hieq.symm

/-! Concrete tables used as witnesses and counterexamples for the engine. -/

/-- An action that always succeeds and advances the issue status to "B". -/
def advAction : Action Unit :=
  ⟨fun s => some ⟨"B", s.ticketStatus, s.rest⟩, "advance issue", false⟩

/-- A forcing rule matching ("A", "Z") whose single action un-matches it. -/
def advDef : ActionDefinition Unit :=
  ⟨["A"], ["Z"], [advAction], "advance once", true⟩

def advCtx : SyncContext Unit := ⟨"A", "Z", ()⟩

theorem advance_htot :
    ∀ d ∈ [advDef], ∀ a ∈ d.actions, ∀ t, (a.handler t).isSome = true := by
  intro d hd a ha t
  rw [List.mem_singleton] at hd
  subst hd
  have ha' : a = advAction := by simpa [advDef] using ha
  subst ha'
  rfl

theorem advance_fireStep (c o : Bool) (x : SyncContext Unit) :
    fireStep [advDef] c o x
      = if eligMatches o x advDef then some ⟨"B", x.ticketStatus, x.rest⟩
        else none := by
  have hacts : advDef.actions = [advAction] := rfl
  by_cases he : eligMatches o x advDef = true
  · simp [fireStep, findMatch, he, hacts, runActions, advAction]
  · simp [fireStep, findMatch, he]

theorem iterFire_succ {α : Type} (defs : List (ActionDefinition α))
    (changed owned : Bool) (n : Nat) (s : SyncContext α) :
    iterFire defs changed owned (n + 1) s
      = (fireStep defs changed owned s).bind (iterFire defs changed owned n) := rfl

theorem iterFire_last {α : Type} (defs : List (ActionDefinition α))
    (changed owned : Bool) :
    ∀ (m : Nat) (s u : SyncContext α),
      iterFire defs changed owned (m + 1) s = some u →
      ∃ w, fireStep defs changed owned w = some u := by
  intro m
  induction m with
  | zero =>
    intro s u h
    rw [iterFire_succ] at h
    cases hf : fireStep defs changed owned s with
    | none => rw [hf] at h; simp at h
    | some y =>
      rw [hf] at h
      simp only [Option.some_bind, iterFire] at h
      exact ⟨s, by rw [hf, h]⟩
  | succ m ih =>
    intro s u h
    rw [iterFire_succ] at h
    cases hf : fireStep defs changed owned s with
    | none => rw [hf] at h; simp at h
    | some y =>
      rw [hf] at h
      simp only [Option.some_bind] at h
      exact ih y u h

theorem advance_no_cycle (c o : Bool) : ¬ selfMatchCycle [advDef] c o := by
  rintro ⟨s, u, n, i, hn, hfi, hit, hfu⟩
  obtain ⟨m, rfl⟩ : ∃ m, n = m + 1 := ⟨n - 1, by omega⟩
  obtain ⟨w, hw⟩ := iterFire_last [advDef] c o m s u hit
  rw [advance_fireStep] at hw
  by_cases he : eligMatches o w advDef = true
  · rw [if_pos he] at hw
    have hu : u.issueStatus = "B" := by
      cases hw
      rfl
    have : firedIdx [advDef] o u = none := by
      simp [firedIdx, findMatch, eligMatches, advDef, hu]
    rw [this] at hfu
    cases hfu
  · rw [if_neg he] at hw
    cases hw

/-- Witness for the amended C2 at a concrete input: a one-rule table whose
action un-matches the rule reaches a no-match state within 2 iterations. -/
theorem status_actions_reach_fixed_point_witness :
    ∃ t log, process_status_actions [advDef] true true ([advDef].length + 1) advCtx
      = (LoopResult.fixedPoint t, log) :=
  status_actions_reach_fixed_point Unit [advDef] true true advCtx
    advance_htot (advance_no_cycle true true)

/-- An action that always succeeds and leaves the context unchanged. -/
def loopAction : Action Unit := ⟨fun s => some s, "noop", false⟩

/-- A non-forcing rule matching ("Open", "open") whose action changes
nothing, so the rule keeps matching while the issue is owned by the bot. -/
def loopDef : ActionDefinition Unit :=
  ⟨["Open"], ["open"], [loopAction], "self-loop", false⟩

def loopCtx : SyncContext Unit := ⟨"Open", "open", ()⟩

/-- Counterexample to C2 as stated: the table `[loopDef]` contains no
self-matching cycle of `force = true` rules (its only rule has
`force = false`), yet with an owned issue the loop is still firing after
rule-count + 1 = 2 iterations and never reaches a no-match state — the
rule re-matches its own post-state forever. -/
theorem nonforce_selfloop_defeats_bound :
    ¬ selfMatchForceCycle [loopDef] true true
    ∧ (process_status_actions [loopDef] true true
        ([loopDef].length + 1) loopCtx).1 = LoopResult.outOfFuel loopCtx
    ∧ ((process_status_actions [loopDef] true true
        ([loopDef].length + 1) loopCtx).1).isFixedPoint = false := by
  refine ⟨?_, by decide, by decide⟩
  rintro ⟨s, u, n, i, hn, hfi, hit, hfu, hall⟩
  obtain ⟨w, j, d, hw, hm, hforce⟩ := hall 0 hn
  have hd : d ∈ [loopDef] := findMatch_mem true w [loopDef] j d hm
  rw [List.mem_singleton] at hd
  subst hd
  exact absurd hforce (by decide)

/-! ## only_once gating (bridge.py lines 355-358 inside the engine loop and
the changed flags of `sync_status`, lines 318-330). -/

theorem runActions_log_no_only_once {α : Type} :
    ∀ (acts : List (Action α)) (s : SyncContext α),
      ∀ a ∈ (runActions false s acts).2.2, a.only_once = false := by
  intro acts
  induction acts with
  | nil => intro s a ha; simp [runActions] at ha
  | cons b rest ih =>
    intro s a ha
    by_cases hb : b.only_once = true
    · simp only [runActions, hb, Bool.not_false, Bool.and_true, if_true] at ha
      exact ih s a ha
    · have hb' : b.only_once = false := by
        revert hb; cases b.only_once <;> simp
      cases hh : b.handler s with
      | none =>
        simp only [runActions, hb', Bool.false_and, Bool.false_eq_true,
          if_false, hh] at ha
        rw [List.mem_singleton] at ha
        subst ha
        exact hb'
      | some s' =>
        simp only [runActions, hb', Bool.false_and, Bool.false_eq_true,
          if_false, hh] at ha
        rcases List.mem_cons.mp ha with rfl | hmem
        · exact hb'
        · exact ih s' a hmem

theorem runActions_false_log {α : Type} :
    ∀ (acts : List (Action α)) (s : SyncContext α),
      (∀ a ∈ acts, ∀ t, (a.handler t).isSome = true) →
      (runActions false s acts).2.2 = acts.filter (fun a => !a.only_once) := by
  intro acts
  induction acts with
  | nil => intro s _; rfl
  | cons b rest ih =>
    intro s htot
    have hres : ∀ t, (b.handler t).isSome = true :=
      htot b (List.mem_cons_self _ _)
    have hrest : ∀ a ∈ rest, ∀ t, (a.handler t).isSome = true :=
      fun a ha => htot a (List.mem_cons_of_mem _ ha)
    by_cases hb : b.only_once = true
    · simp only [runActions, hb, Bool.not_false, Bool.and_true, if_true]
      rw [ih s hrest]
      simp [List.filter, hb]
    · have hb' : b.only_once = false := by
        revert hb; cases b.only_once <;> simp
      cases hh : b.handler s with
      | none =>
        exfalso
        have := hres s
        rw [hh] at this
        simp at this
      | some s' =>
        simp only [runActions, hb', Bool.false_and, Bool.false_eq_true,
          if_false, hh]
        rw [ih s' hrest]
        simp [List.filter, hb']

theorem runActions_true_log {α : Type} :
    ∀ (acts : List (Action α)) (s : SyncContext α),
      (∀ a ∈ acts, ∀ t, (a.handler t).isSome = true) →
      (runActions true s acts).2.2 = acts := by
  intro acts
  induction acts with
  | nil => intro s _; rfl
  | cons b rest ih =>
    intro s htot
    have hres : ∀ t, (b.handler t).isSome = true :=
      htot b (List.mem_cons_self _ _)
    have hrest : ∀ a ∈ rest, ∀ t, (a.handler t).isSome = true :=
      fun a ha => htot a (List.mem_cons_of_mem _ ha)
    cases hh : b.handler s with
    | none =>
      exfalso
      have := hres s
      rw [hh] at this
      simp at this
    | some s' =>
      simp only [runActions, Bool.not_true, Bool.and_false, Bool.false_eq_true,
        if_false, hh]
      rw [ih s' hrest]

theorem process_log_no_only_once {α : Type} (defs : List (ActionDefinition α))
    (owned : Bool) :
    ∀ (fuel : Nat) (s : SyncContext α),
      ∀ a ∈ (process_status_actions defs false owned fuel s).2,
        a.only_once = false := by
  intro fuel
  induction fuel with
  | zero => intro s a ha; simp [process_status_actions] at ha
  | succ fuel ih =>
    intro s a ha
    cases hfm : findMatch owned s defs with
    | none =>
      rw [process_succ_none defs false owned fuel s hfm] at ha
      simp at ha
    | some p =>
      obtain ⟨i, d⟩ := p
      rw [process_succ_some defs false owned fuel s i d hfm] at ha
      by_cases hab : (runActions false s d.actions).2.1 = true
      · rw [if_pos hab] at ha
        exact runActions_log_no_only_once d.actions s a ha
      · rw [if_neg hab] at ha
        rcases List.mem_append.mp ha with hmem | hmem
        · exact runActions_log_no_only_once d.actions s a hmem
        · exact ih _ a hmem

/-- Claim C6 as amended: an `only_once` action is gated per LOOP ITERATION
by the pass-level `changed` flag, not fired at most once per pass.  On a
pass whose current status equals the persisted last-seen status the
`changed` flag is false, and then no `only_once` action executes anywhere
in the loop while the rule's remaining actions still execute in order; on
the pass where a status change is first observed (`changed` true) the
action executes on EVERY iteration in which its rule fires — exactly once
overall only if that rule fires exactly once in that pass (the
counterexample shows repeated firing within one pass). -/
theorem only_once_gating (α : Type) (defs : List (ActionDefinition α))
    (owned : Bool) (fuel : Nat) (s₀ : SyncContext α) (acts : List (Action α))
    (s : SyncContext α) (cur : String)
    (htot : ∀ a ∈ acts, ∀ t, (a.handler t).isSome = true) :
    status_changed (some cur) cur = false
    ∧ (∀ a ∈ (process_status_actions defs false owned fuel s₀).2,
        a.only_once = false)
    ∧ (runActions false s acts).2.2 = acts.filter (fun a => !a.only_once)
    ∧ (runActions true s acts).2.2 = acts :=
  ⟨by simp [status_changed],
   fun a ha => process_log_no_only_once defs owned fuel s₀ a ha,
   runActions_false_log acts s htot,
   runActions_true_log acts s htot⟩

/-- Witness for the amended C6 at concrete inputs. -/
theorem only_once_gating_witness :
    status_changed (some "Done") "Done" = false
    ∧ (∀ a ∈ (process_status_actions [advDef] false true 2 advCtx).2,
        a.only_once = false)
    ∧ (runActions false advCtx [advAction]).2.2
        = [advAction].filter (fun a => !a.only_once)
    ∧ (runActions true advCtx [advAction]).2.2 = [advAction] :=
  only_once_gating Unit [advDef] true 2 advCtx [advAction] advCtx "Done"
    (by
      intro a ha t
      rw [List.mem_singleton] at ha
      subst ha
      rfl)

/-- An `only_once` action that leaves the context unchanged. -/
def onceAction : Action Unit := ⟨fun s => some s, "tag once", true⟩

/-- A rule matching ("J1", "Z") whose single action is `only_once`. -/
def onceDef : ActionDefinition Unit :=
  ⟨["J1"], ["Z"], [onceAction], "once rule", true⟩

def onceCtx : SyncContext Unit := ⟨"J1", "Z", ()⟩

/-- Counterexample to C6 as stated: on the very pass where the status
change is first observed (last-seen unset, so `changed` is true and stays
true for the whole pass), the `only_once` action fires once per loop
iteration — three times in three iterations — not exactly once. -/
theorem only_once_refires_in_first_pass :
    status_changed none "J1" = true
    ∧ (process_status_actions [onceDef] (status_changed none "J1") true 3
        onceCtx).2.countP (fun a => a.only_once) = 3 := by
  constructor
  · rfl
  · decide

end Jzb
